import Mathlib

/-!
Verification development for the quant-analytics-dashboard ingestion and
incremental-aggregation core.

Shallow embedding of:
- `storage/datastore.py` (`MarketDataStore`): two append-only tables,
  `ticks` and `ohlc`, modelled as Lean lists; inserts append rows.
- `resampling/sampler.py` (`Resampler`): watermark-based incremental OHLC
  aggregation; `time_bucket` with a fixed width; DuckDB `arg_min`/`arg_max`/
  `max`/`min`/`sum` aggregates modelled as list folds.
- `ingestion/binance_ws.py` (`BinanceWebSocketIngestor`): message parsing,
  the lock-guarded tick buffer with swap-on-flush, and the start lifecycle.

Timestamps are UTC epoch milliseconds (`Nat`); prices and sizes, stored as
DuckDB `DOUBLE`, are modelled as exact rationals (`Rat`).  Because the tick
buffer and every table operation run under a mutual-exclusion lock or on a
single writer path, concurrent executions are modelled as interleavings of
the atomic events (append, swap-flush), i.e. as event traces.
-/

/-- One trade event: a row of the `ticks` table
(`ts`, `symbol`, `price`, `size`). -/
structure Tick where
  ts : Nat
  symbol : String
  price : Rat
  size : Rat
deriving DecidableEq

/-- One OHLC bar: a row of the `ohlc` table
(`ts` is the bucket start). -/
structure Bar where
  ts : Nat
  symbol : String
  timeframe : String
  «open» : Rat
  high : Rat
  low : Rat
  close : Rat
  volume : Rat
deriving DecidableEq

/-- The `MarketDataStore` state: the contents of the two tables, in row
insertion order. -/
structure Store where
  ticks : List Tick
  ohlc : List Bar
deriving DecidableEq

/-- A freshly created store: both tables empty. -/
def emptyStore : Store := { ticks := [], ohlc := [] }

/-- `MarketDataStore.insert_ticks`: appends a batch of tick rows. -/
def insert_ticks (st : Store) (batch : List Tick) : Store :=
  { st with ticks := st.ticks ++ batch }

/-- `MarketDataStore.insert_ohlc`: appends a batch of bar rows (no
uniqueness constraint is enforced by the table). -/
def insert_ohlc (st : Store) (batch : List Bar) : Store :=
  { st with ohlc := st.ohlc ++ batch }

/-- `TIMEFRAME_MAP` from `resampling/sampler.py`, with each supported
timeframe mapped to its bucket width in milliseconds. -/
def TIMEFRAME_MAP (tf : String) : Option Nat :=
  if tf = "1s" then some 1000
  else if tf = "1m" then some 60000
  else if tf = "5m" then some 300000
  else none

/-- DuckDB `time_bucket(INTERVAL w, ts)`: floor `ts` to a multiple of the
bucket width `w`. -/
def time_bucket (w ts : Nat) : Nat := ts / w * w

/-- SQL `MAX` over a list of timestamps; `none` on an empty list
(SQL `MAX` of no rows is `NULL`). -/
def natMax? : List Nat → Option Nat
  | [] => none
  | t :: ts =>
    match natMax? ts with
    | none => some t
    | some m => some (max t m)

/-- `Resampler._latest_bar_time`: `SELECT MAX(ts) FROM ohlc WHERE
symbol = ? AND timeframe = ?`; the high-water mark of the key. -/
def latest_bar_time (st : Store) (sym tf : String) : Option Nat :=
  natMax? ((st.ohlc.filter (fun b => b.symbol == sym && b.timeframe == tf)).map Bar.ts)

/-- The `WHERE` clause of the resampling query: `symbol = ?` plus
`AND ts > ?` when a high-water mark exists. -/
def tickSelected (sym : String) (h? : Option Nat) (t : Tick) : Bool :=
  t.symbol == sym &&
    match h? with
    | none => true
    | some h => decide (h < t.ts)

/-- The ticks the resampling query scans: the rows of `ticks` passing the
`WHERE` clause. -/
def selectedTicks (st : Store) (sym : String) (h? : Option Nat) : List Tick :=
  st.ticks.filter (tickSelected sym h?)

/-- Fold step of DuckDB `arg_min(price, ts)` over a group: keep the row
with the smallest `ts` (the first such row on ties). -/
def argMinByTs (t : Tick) (l : List Tick) : Tick :=
  l.foldl (fun best x => if x.ts < best.ts then x else best) t

/-- Fold step of DuckDB `arg_max(price, ts)` over a group: keep the row
with the largest `ts` (the first such row on ties). -/
def argMaxByTs (t : Tick) (l : List Tick) : Tick :=
  l.foldl (fun best x => if best.ts < x.ts then x else best) t

/-- Placeholder row; never used on the groups `resample` builds, which are
nonempty by construction. -/
def dummyTick : Tick := { ts := 0, symbol := "", price := 0, size := 0 }

/-- DuckDB `arg_min(price, ts)` applied to a tick group (as the full row;
the query projects its `price`). -/
def arg_min : List Tick → Tick
  | [] => dummyTick
  | t :: l => argMinByTs t l

/-- DuckDB `arg_max(price, ts)` applied to a tick group. -/
def arg_max : List Tick → Tick
  | [] => dummyTick
  | t :: l => argMaxByTs t l

/-- DuckDB `max(price)` over a tick group. -/
def high_of : List Tick → Rat
  | [] => 0
  | t :: l => l.foldl (fun m x => max m x.price) t.price

/-- DuckDB `min(price)` over a tick group. -/
def low_of : List Tick → Rat
  | [] => 0
  | t :: l => l.foldl (fun m x => min m x.price) t.price

/-- DuckDB `sum(size)` over a tick group. -/
def sumSizes (l : List Tick) : Rat :=
  l.foldl (fun s x => s + x.size) 0

/-- The `SELECT` row the resampling query produces for one bucket `b`
whose constituent ticks are `g`. -/
def barOfGroup (sym tf : String) (b : Nat) (g : List Tick) : Bar :=
  { ts := b, symbol := sym, timeframe := tf,
    «open» := (arg_min g).price, high := high_of g, low := low_of g,
    close := (arg_max g).price, volume := sumSizes g }

/-- Insert a bucket start into an ascending duplicate-free list, keeping it
ascending and duplicate-free (`GROUP BY 1 ... ORDER BY 1`). -/
def insertSortedDedup (x : Nat) : List Nat → List Nat
  | [] => [x]
  | y :: ys =>
    if x < y then x :: y :: ys
    else if x = y then y :: ys
    else y :: insertSortedDedup x ys

/-- The distinct bucket starts of the selected ticks, ascending:
the `GROUP BY 1 ... ORDER BY 1` key list of the resampling query. -/
def sortedBuckets (w : Nat) (sel : List Tick) : List Nat :=
  (sel.map (fun t => time_bucket w t.ts)).foldr insertSortedDedup []

/-- The group of selected ticks falling in bucket `b`. -/
def groupOf (w : Nat) (sel : List Tick) (b : Nat) : List Tick :=
  sel.filter (fun t => time_bucket w t.ts == b)

/-- The rows the resampling `INSERT INTO ohlc SELECT ... GROUP BY 1, 2
ORDER BY 1` statement inserts, given the selected ticks. -/
def newBarsFor (w : Nat) (sym tf : String) (sel : List Tick) : List Bar :=
  (sortedBuckets w sel).map (fun b => barOfGroup sym tf b (groupOf w sel b))

/-- `Resampler.resample(symbol, timeframe)`.  The first statement,
`TIMEFRAME_MAP[timeframe]`, raises `KeyError` for an unsupported timeframe
(modelled as `Except.error ()`, the store untouched); otherwise the
high-water mark is read and the aggregation query's rows are appended. -/
def resample (st : Store) (sym tf : String) : Except Unit Store :=
  match TIMEFRAME_MAP tf with
  | none => Except.error ()
  | some w =>
    Except.ok (insert_ohlc st (newBarsFor w sym tf
      (selectedTicks st sym (latest_bar_time st sym tf))))

/-- `ORDER BY ts DESC` comparison on ticks. -/
def tsGE (a b : Tick) : Prop := b.ts ≤ a.ts

instance : DecidableRel tsGE := fun a b => Nat.decLe b.ts a.ts

instance : IsTotal Tick tsGE := ⟨fun a b => Nat.le_total b.ts a.ts⟩

instance : IsTrans Tick tsGE := ⟨fun _ _ _ hab hbc => Nat.le_trans hbc hab⟩

/-- `MarketDataStore.get_ticks(symbol, limit)`: `SELECT * FROM ticks WHERE
symbol = ? ORDER BY ts DESC LIMIT ?`. -/
def get_ticks (st : Store) (sym : String) (limit : Nat) : List Tick :=
  (List.insertionSort tsGE (st.ticks.filter (fun t => t.symbol == sym))).take limit

/-- The store operations that reach the tables: tick batch inserts (the
ingestor's flush) and resampler invocations. -/
inductive Op where
  | insert (batch : List Tick)
  | resampleOp (sym tf : String)

/-- Apply one operation to the store.  A `resample` whose `KeyError`
propagates leaves the store unchanged. -/
def applyOp (st : Store) : Op → Store
  | Op.insert batch => insert_ticks st batch
  | Op.resampleOp sym tf =>
    match resample st sym tf with
    | Except.error _ => st
    | Except.ok st' => st'

/-- Run a sequence of store operations. -/
def runOps (st : Store) (ops : List Op) : Store := ops.foldl applyOp st

/-- Ordering on optional high-water marks: `none` (no bars yet) is below
everything; two marks compare by value. -/
def optNatLe : Option Nat → Option Nat → Prop
  | none, _ => True
  | some _, none => False
  | some a, some b => a ≤ b

/-- A timestamp lies strictly after the high-water mark (vacuously, when no
mark exists): the condition for a tick to enter the aggregation. -/
def afterMark (h? : Option Nat) (ts : Nat) : Prop :=
  match h? with
  | none => True
  | some h => h < ts

/-- The constituent ticks of bucket `b` in a `resample st sym tf` call:
the selected ticks of `st` whose bucket start is `b`. -/
def bucketTicksOf (st : Store) (sym tf : String) (w b : Nat) : List Tick :=
  groupOf w (selectedTicks st sym (latest_bar_time st sym tf)) b

/-- An inbound websocket message as `BinanceWebSocketIngestor._on_message`
sees it: either some step of parsing raises (invalid JSON, missing field,
non-numeric price or quantity) — `malformed` — or parsing succeeds and
yields the event type `e`, the millisecond timestamp `T`, the symbol `s`
and the price and quantity fields `p`, `q`. -/
inductive Msg where
  | malformed
  | parsed (e : String) (T : Nat) (s : String) (p q : Rat)

/-- The tick `_on_message` builds from a trade message: millisecond
timestamp normalized to a UTC instant (kept as the same millisecond count),
symbol lower-cased, price and quantity coerced to numbers. -/
def tickOfFields (T : Nat) (s : String) (p q : Rat) : Tick :=
  { ts := T, symbol := s.toLower, price := p, size := q }

/-- `BinanceWebSocketIngestor._on_message` acting on the buffer: the
`try`/`except` swallows any parse failure (buffer untouched); a parsed
message with event type other than `"trade"` returns early; a trade
message appends its tick under the lock. -/
def on_message (buf : List Tick) : Msg → List Tick
  | Msg.malformed => buf
  | Msg.parsed e T s p q =>
    if e = "trade" then buf ++ [tickOfFields T s p q] else buf

/-- The tick a message contributes, if any: `none` for a malformed message
or one whose event type is not `"trade"`. -/
def tickOfMsg : Msg → Option Tick
  | Msg.malformed => none
  | Msg.parsed e T s p q =>
    if e = "trade" then some (tickOfFields T s p q) else none

/-- Deliver a sequence of messages to `_on_message`. -/
def processMsgs (buf : List Tick) (ms : List Msg) : List Tick :=
  ms.foldl on_message buf

/-- The atomic lock-protected buffer events: every concurrent execution of
the per-symbol message appends and the flush task is an interleaving of
these (both the append and the buffer swap run under `self._lock`). -/
inductive BufEv where
  | append (t : Tick)
  | flush

/-- Buffer-and-flush state: the in-memory tick buffer, and the list of
batches handed to `MarketDataStore.insert_ticks` so far, in order. -/
structure IngestBuf where
  buffer : List Tick
  flushed : List (List Tick)
deriving DecidableEq

/-- `BinanceWebSocketIngestor._flush_buffer`: under the lock, an empty
buffer returns early (no storage call); otherwise the buffer is swapped
for an empty one and the swapped-out batch is handed to `insert_ticks`
outside the lock. -/
def flush_buffer (s : IngestBuf) : IngestBuf :=
  if s.buffer = [] then s
  else { buffer := [], flushed := s.flushed ++ [s.buffer] }

/-- One atomic buffer event. -/
def bufStep (s : IngestBuf) : BufEv → IngestBuf
  | BufEv.append t => { s with buffer := s.buffer ++ [t] }
  | BufEv.flush => flush_buffer s

/-- Run an interleaving of buffer events. -/
def runBuf (s : IngestBuf) (evs : List BufEv) : IngestBuf := evs.foldl bufStep s

/-- The ticks appended over a trace, in lock-acquisition order. -/
def appendedOf (evs : List BufEv) : List Tick :=
  evs.filterMap (fun e => match e with | BufEv.append t => some t | BufEv.flush => none)

/-- A thread `BinanceWebSocketIngestor.start` launches: one websocket
thread per symbol, plus the flush thread. -/
inductive ThreadKind where
  | socketThread (sym : String)
  | flushThread
deriving DecidableEq

/-- The ingestor's lifecycle state: the configured symbols, the running
flag, and the threads launched so far (`self._threads`). -/
structure Ingestor where
  symbols : List String
  running : Bool
  threads : List ThreadKind
deriving DecidableEq

/-- `BinanceWebSocketIngestor.start`: returns immediately when already
running; otherwise sets the running flag and launches one websocket thread
per symbol followed by the flush thread. -/
def start (ig : Ingestor) : Ingestor :=
  if ig.running then ig
  else { ig with
    running := true,
    threads := ig.threads ++ ig.symbols.map ThreadKind.socketThread
      ++ [ThreadKind.flushThread] }

/-! Concrete fixtures used to instantiate the theorems below on executable
inputs. -/

/-- The three-tick fixture of the aggregation-correctness property: prices
10, 12, 9 with sizes 1, 2, 1, all inside the first 1-minute bucket. -/
def aggTicks : List Tick :=
  [ { ts := 0, symbol := "btcusdt", price := 10, size := 1 },
    { ts := 1000, symbol := "btcusdt", price := 12, size := 2 },
    { ts := 2000, symbol := "btcusdt", price := 9, size := 1 } ]

/-- Store holding exactly the three aggregation-fixture ticks. -/
def aggSt : Store := insert_ticks emptyStore aggTicks

/-- The bar the aggregation fixture produces: bucket 0 aggregated from the
three fixture ticks. -/
def aggBar0 : Bar :=
  barOfGroup "btcusdt" "1m" 0 (bucketTicksOf aggSt "btcusdt" "1m" 60000 0)

/-- The store after resampling the aggregation fixture at 1 minute. -/
def aggSt' : Store := runOps aggSt [Op.resampleOp "btcusdt" "1m"]

/-- A tick sitting 5 seconds into the first 1-minute bucket, i.e. strictly
after that bucket's start. -/
def dupTick : Tick := { ts := 5000, symbol := "btcusdt", price := 1, size := 1 }

/-- Reachable store: `dupTick` inserted and resampled once at 1 minute
(one bar, bucket start 0, high-water mark 0). -/
def dupSt1 : Store :=
  runOps emptyStore [Op.insert [dupTick], Op.resampleOp "btcusdt" "1m"]

/-- The previous store resampled a second time: `dupTick` still has
`ts > 0`, so bucket 0 is re-aggregated and re-inserted. -/
def dupSt2 : Store := runOps dupSt1 [Op.resampleOp "btcusdt" "1m"]

/-- An ingestor that is already running. -/
def igRunning : Ingestor :=
  { symbols := ["btcusdt", "ethusdt"], running := true, threads := [] }

/-- An ingestor in the stopped state. -/
def igStopped : Ingestor :=
  { symbols := ["btcusdt", "ethusdt"], running := false, threads := [] }

/-- A well-formed trade message. -/
def msgTrade : Msg := Msg.parsed "trade" 1000 "BTCUSDT" 10 1

/-- A second well-formed trade message. -/
def msgTrade2 : Msg := Msg.parsed "trade" 2000 "ETHUSDT" 20 2

/-- A parsed non-trade message. -/
def msgOther : Msg := Msg.parsed "aggTrade" 1500 "BTCUSDT" 11 1

/-- Store fixture for the ticks query: three ticks of the queried symbol,
out of arrival order, and one tick of another symbol. -/
def qSt : Store :=
  { ticks :=
      [ { ts := 1000, symbol := "btcusdt", price := 10, size := 1 },
        { ts := 3000, symbol := "btcusdt", price := 11, size := 1 },
        { ts := 500, symbol := "ethusdt", price := 20, size := 1 },
        { ts := 2000, symbol := "btcusdt", price := 12, size := 1 } ],
    ohlc := [] }

/-- The bar row the second resample call of the duplicate-bucket fixture
appends: bucket 0 re-aggregated from the single tick `dupTick`. -/
def dupBar0 : Bar :=
  barOfGroup "btcusdt" "1m" 0 (bucketTicksOf dupSt1 "btcusdt" "1m" 60000 0)

/-- The most recent tick of the query fixture's queried symbol. -/
def qTickA : Tick := { ts := 3000, symbol := "btcusdt", price := 11, size := 1 }

/-- The oldest tick of the query fixture's queried symbol (left out of a
limit-2 query). -/
def qTickC : Tick := { ts := 1000, symbol := "btcusdt", price := 10, size := 1 }

/-! ### Helper lemmas -/

theorem on_message_eq (buf : List Tick) (m : Msg) :
    on_message buf m = buf ++ (tickOfMsg m).toList := by
  cases m with
  | malformed => simp [on_message, tickOfMsg]
  | parsed e T s p q =>
    by_cases h : e = "trade" <;> simp [on_message, tickOfMsg, h]

theorem processMsgs_eq (buf : List Tick) (ms : List Msg) :
    processMsgs buf ms = buf ++ ms.filterMap tickOfMsg := by
  induction ms generalizing buf with
  | nil => simp [processMsgs]
  | cons m ms ih =>
    have hstep : processMsgs buf (m :: ms) = processMsgs (on_message buf m) ms := rfl
    rw [hstep, ih, on_message_eq, List.filterMap_cons]
    cases h : tickOfMsg m <;> simp [h]

theorem appendedOf_cons_append (t : Tick) (evs : List BufEv) :
    appendedOf (BufEv.append t :: evs) = t :: appendedOf evs := rfl

theorem appendedOf_cons_flush (evs : List BufEv) :
    appendedOf (BufEv.flush :: evs) = appendedOf evs := rfl

theorem runBuf_inv (evs : List BufEv) (s : IngestBuf) :
    (runBuf s evs).flushed.flatten ++ (runBuf s evs).buffer
      = s.flushed.flatten ++ (s.buffer ++ appendedOf evs) := by
  induction evs generalizing s with
  | nil => simp [runBuf, appendedOf]
  | cons e evs ih =>
    have hstep : runBuf s (e :: evs) = runBuf (bufStep s e) evs := rfl
    rw [hstep, ih]
    cases e with
    | append t => simp [bufStep, appendedOf_cons_append]
    | flush =>
      by_cases hb : s.buffer = []
      · simp [bufStep, flush_buffer, hb, appendedOf_cons_flush]
      · simp [bufStep, flush_buffer, hb, appendedOf_cons_flush]

theorem bufStep_flush_buffer_empty (s : IngestBuf) :
    (bufStep s BufEv.flush).buffer = [] := by
  by_cases hb : s.buffer = [] <;> simp [bufStep, flush_buffer, hb]

theorem natMax?_none {l : List Nat} (h : natMax? l = none) : l = [] := by
  cases l with
  | nil => rfl
  | cons t ts => cases h' : natMax? ts <;> simp [natMax?, h'] at h

theorem natMax?_isSome {l : List Nat} (h : l ≠ []) : ∃ m, natMax? l = some m := by
  cases l with
  | nil => exact absurd rfl h
  | cons t ts => cases h' : natMax? ts <;> simp [natMax?, h']

theorem natMax?_spec {l : List Nat} {m : Nat} (h : natMax? l = some m) :
    m ∈ l ∧ ∀ x ∈ l, x ≤ m := by
  induction l generalizing m with
  | nil => simp [natMax?] at h
  | cons t ts ih =>
    cases hts : natMax? ts with
    | none =>
      have hnil : ts = [] := natMax?_none hts
      subst hnil
      simp [natMax?] at h
      subst h
      simp
    | some m' =>
      rw [natMax?, hts] at h
      have hm : m = max t m' := by exact (Option.some_injective _ h).symm
      subst hm
      obtain ⟨hmem, hle⟩ := ih hts
      constructor
      · rcases Nat.le_total t m' with hc | hc
        · exact List.mem_cons_of_mem _ (by rwa [Nat.max_eq_right hc])
        · rw [Nat.max_eq_left hc]; exact List.mem_cons_self _ _
      · intro x hx
        rcases List.mem_cons.mp hx with rfl | hx'
        · exact Nat.le_max_left _ _
        · exact Nat.le_trans (hle x hx') (Nat.le_max_right _ _)

theorem natMax?_le_append (l1 l2 : List Nat) :
    optNatLe (natMax? l1) (natMax? (l1 ++ l2)) := by
  cases h1 : natMax? l1 with
  | none => exact trivial
  | some m =>
    have hmem : m ∈ l1 := (natMax?_spec h1).1
    have hne : l1 ++ l2 ≠ [] := by
      intro hc
      rw [List.append_eq_nil] at hc
      rw [hc.1] at hmem
      exact List.not_mem_nil m hmem
    obtain ⟨m', h2⟩ := natMax?_isSome hne
    rw [h2]
    exact (natMax?_spec h2).2 m (List.mem_append_left _ hmem)

theorem optNatLe_refl (a : Option Nat) : optNatLe a a := by
  cases a <;> simp [optNatLe]

theorem optNatLe_trans {a b c : Option Nat} (h1 : optNatLe a b) (h2 : optNatLe b c) :
    optNatLe a c := by
  cases a with
  | none => exact trivial
  | some x =>
    cases b with
    | none => exact absurd h1 (by simp [optNatLe])
    | some y =>
      cases c with
      | none => exact absurd h2 (by simp [optNatLe])
      | some z => exact Nat.le_trans h1 h2

theorem latest_bar_time_insert_ohlc (st : Store) (batch : List Bar) (sym tf : String) :
    optNatLe (latest_bar_time st sym tf)
      (latest_bar_time (insert_ohlc st batch) sym tf) := by
  have h : latest_bar_time (insert_ohlc st batch) sym tf
      = natMax?
        (((st.ohlc.filter (fun b => b.symbol == sym && b.timeframe == tf)).map Bar.ts)
          ++ ((batch.filter (fun b => b.symbol == sym && b.timeframe == tf)).map Bar.ts)) := by
    rw [latest_bar_time]
    rw [show (insert_ohlc st batch).ohlc = st.ohlc ++ batch from rfl]
    rw [List.filter_append, List.map_append]
  rw [h, latest_bar_time]
  exact natMax?_le_append _ _

theorem resample_ok_eq {st st' : Store} {sym tf : String}
    (h : resample st sym tf = Except.ok st') :
    ∃ w, TIMEFRAME_MAP tf = some w ∧
      st' = insert_ohlc st
        (newBarsFor w sym tf (selectedTicks st sym (latest_bar_time st sym tf))) := by
  cases hTF : TIMEFRAME_MAP tf with
  | none =>
    rw [resample] at h
    rw [hTF] at h
    exact Except.noConfusion h
  | some w =>
    rw [resample] at h
    rw [hTF] at h
    injection h with h'
    exact ⟨w, rfl, h'.symm⟩

theorem latest_bar_time_applyOp (st : Store) (op : Op) (sym tf : String) :
    optNatLe (latest_bar_time st sym tf)
      (latest_bar_time (applyOp st op) sym tf) := by
  cases op with
  | insert batch => exact optNatLe_refl _
  | resampleOp s2 t2 =>
    cases hr : resample st s2 t2 with
    | error e =>
      have : applyOp st (Op.resampleOp s2 t2) = st := by
        rw [applyOp, hr]
      rw [this]
      exact optNatLe_refl _
    | ok st' =>
      obtain ⟨w, _, hst'⟩ := resample_ok_eq hr
      have : applyOp st (Op.resampleOp s2 t2) = st' := by
        rw [applyOp, hr]
      rw [this, hst']
      exact latest_bar_time_insert_ohlc _ _ _ _

/-! ### Claim theorems -/

/-- Claim C4: for any interleaving of concurrent tick appends and flushes
(every buffer access is an atomic lock-protected event), the concatenation
of all flushed batches plus the remaining buffer is exactly the sequence of
appended ticks — no duplicates, no omissions — and after a final flush the
flushed batches alone contain exactly the appended ticks. -/
theorem buffer_atomicity (evs : List BufEv) :
    (runBuf (IngestBuf.mk [] []) evs).flushed.flatten
        ++ (runBuf (IngestBuf.mk [] []) evs).buffer = appendedOf evs ∧
    (runBuf (IngestBuf.mk [] []) (evs ++ [BufEv.flush])).flushed.flatten
      = appendedOf evs := by
  constructor
  · have h := runBuf_inv evs (IngestBuf.mk [] [])
    simpa using h
  · have h := runBuf_inv (evs ++ [BufEv.flush]) (IngestBuf.mk [] [])
    have hbuf : (runBuf (IngestBuf.mk [] []) (evs ++ [BufEv.flush])).buffer = [] := by
      have hsplit : runBuf (IngestBuf.mk [] []) (evs ++ [BufEv.flush])
          = bufStep (runBuf (IngestBuf.mk [] []) evs) BufEv.flush := by
        rw [runBuf, List.foldl_append]
        rfl
      rw [hsplit]
      exact bufStep_flush_buffer_empty _
    rw [hbuf, List.append_nil] at h
    have happ : appendedOf (evs ++ [BufEv.flush]) = appendedOf evs := by
      rw [appendedOf, appendedOf, List.filterMap_append]
      simp
    simpa [happ] using h

/-- Claim C5: the high-water mark `max_bar_time(symbol, timeframe)` is
non-decreasing across any sequence of store operations — tick batch
inserts and resampler invocations in any order. -/
theorem hwm_monotonic (st : Store) (ops : List Op) (sym tf : String) :
    optNatLe (latest_bar_time st sym tf)
      (latest_bar_time (runOps st ops) sym tf) := by
  induction ops generalizing st with
  | nil => exact optNatLe_refl _
  | cons op ops ih =>
    have hstep : runOps st (op :: ops) = runOps (applyOp st op) ops := rfl
    rw [hstep]
    exact optNatLe_trans (latest_bar_time_applyOp st op sym tf) (ih (applyOp st op))

/-- Claim C6: flushing an empty buffer is a no-op — the early return fires
before the storage call, so no batch is handed to `insert_ticks` and the
whole state (buffer and flushed-batch history) is unchanged. -/
theorem flush_empty_noop (s : IngestBuf) (h : s.buffer = []) :
    flush_buffer s = s ∧ (flush_buffer s).flushed = s.flushed := by
  constructor
  · rw [flush_buffer, if_pos h]
  · rw [flush_buffer, if_pos h]

/-- Witness for C6 at the all-empty buffer state. -/
theorem flush_empty_noop_witness :
    (IngestBuf.mk [] []).buffer = [] ∧
      (flush_buffer (IngestBuf.mk [] []) = IngestBuf.mk [] [] ∧
        (flush_buffer (IngestBuf.mk [] [])).flushed = (IngestBuf.mk [] []).flushed) :=
  ⟨rfl, flush_empty_noop (IngestBuf.mk [] []) rfl⟩

/-- Claim C7: message handling is per-message isolated.  Processing a batch
appends exactly the ticks of the parseable trade messages; a malformed
message anywhere in the batch changes nothing about how the other messages
are ingested; and the only messages contributing a tick are those whose
event type is `"trade"`. -/
theorem parse_isolation (buf : List Tick) (ms ms1 ms2 : List Msg) :
    processMsgs buf ms = buf ++ ms.filterMap tickOfMsg ∧
    processMsgs buf (ms1 ++ Msg.malformed :: ms2) = processMsgs buf (ms1 ++ ms2) ∧
    on_message buf Msg.malformed = buf ∧
    (∀ m ∈ ms, tickOfMsg m = none ∨
      ∃ T s p q, m = Msg.parsed "trade" T s p q ∧
        on_message buf m = buf ++ [tickOfFields T s p q]) := by
  refine ⟨processMsgs_eq buf ms, ?_, rfl, ?_⟩
  · rw [processMsgs_eq, processMsgs_eq, List.filterMap_append, List.filterMap_append,
      List.filterMap_cons]
    rfl
  · intro m _
    cases m with
    | malformed => exact Or.inl rfl
    | parsed e T s p q =>
      by_cases h : e = "trade"
      · subst h
        exact Or.inr ⟨T, s, p, q, rfl, by rw [on_message, if_pos rfl]⟩
      · exact Or.inl (by rw [tickOfMsg, if_neg h])

/-- Witness for C7: a malformed message between two trade messages and a
non-trade message; the valid trades are ingested, the rest drop out. -/
theorem parse_isolation_witness :
    (processMsgs [] [msgTrade, Msg.malformed, msgOther, msgTrade2]
        = [] ++ ([msgTrade, Msg.malformed, msgOther, msgTrade2].filterMap tickOfMsg) ∧
      processMsgs [] ([msgTrade] ++ Msg.malformed :: [msgOther, msgTrade2])
        = processMsgs [] ([msgTrade] ++ [msgOther, msgTrade2]) ∧
      on_message [] Msg.malformed = [] ∧
      (∀ m ∈ [msgTrade, Msg.malformed, msgOther, msgTrade2], tickOfMsg m = none ∨
        ∃ T s p q, m = Msg.parsed "trade" T s p q ∧
          on_message [] m = [] ++ [tickOfFields T s p q])) ∧
    processMsgs [] [msgTrade, Msg.malformed, msgOther, msgTrade2]
      = [tickOfFields 1000 "BTCUSDT" 10 1, tickOfFields 2000 "ETHUSDT" 20 2] :=
  ⟨parse_isolation [] [msgTrade, Msg.malformed, msgOther, msgTrade2]
      [msgTrade] [msgOther, msgTrade2],
    rfl⟩

/-- Claim C8: `start` is idempotent — on a running ingestor it is a no-op
(same state, no threads launched); on a stopped one it sets the running
flag and launches one websocket thread per symbol plus the flush thread. -/
theorem start_idempotent (ig : Ingestor) :
    (ig.running = true → start ig = ig) ∧
    (ig.running = false → (start ig).running = true ∧
      (start ig).threads = ig.threads ++ ig.symbols.map ThreadKind.socketThread
        ++ [ThreadKind.flushThread]) := by
  constructor
  · intro h
    rw [start, if_pos h]
  · intro h
    constructor
    · rw [start, if_neg (by rw [h]; exact Bool.false_ne_true)]
    · rw [start, if_neg (by rw [h]; exact Bool.false_ne_true)]

/-- Witness for C8 on a running and a stopped two-symbol ingestor. -/
theorem start_idempotent_witness :
    (igRunning.running = true ∧ start igRunning = igRunning) ∧
    (igStopped.running = false ∧ (start igStopped).running = true ∧
      (start igStopped).threads
        = igStopped.threads ++ igStopped.symbols.map ThreadKind.socketThread
          ++ [ThreadKind.flushThread]) :=
  ⟨⟨rfl, (start_idempotent igRunning).1 rfl⟩,
    ⟨rfl, (start_idempotent igStopped).2 rfl⟩⟩

/-- Claim C10: `resample` with a timeframe outside the supported set raises
`KeyError` from the very first statement (the `TIMEFRAME_MAP` lookup),
before any store read or write, so the store is left unchanged. -/
theorem resample_unsupported_timeframe (st : Store) (sym tf : String)
    (h1 : tf ≠ "1s") (h2 : tf ≠ "1m") (h3 : tf ≠ "5m") :
    resample st sym tf = Except.error () ∧
      applyOp st (Op.resampleOp sym tf) = st := by
  have hTF : TIMEFRAME_MAP tf = none := by
    rw [TIMEFRAME_MAP, if_neg h1, if_neg h2, if_neg h3]
  have herr : resample st sym tf = Except.error () := by
    rw [resample, hTF]
  exact ⟨herr, by rw [applyOp, herr]⟩

/-- Witness for C10 with the unsupported timeframe string `"2h"`. -/
theorem resample_unsupported_timeframe_witness :
    (("2h" : String) ≠ "1s" ∧ ("2h" : String) ≠ "1m" ∧ ("2h" : String) ≠ "5m") ∧
      (resample aggSt "btcusdt" "2h" = Except.error () ∧
        applyOp aggSt (Op.resampleOp "btcusdt" "2h") = aggSt) :=
  ⟨⟨by decide, by decide, by decide⟩,
    resample_unsupported_timeframe aggSt "btcusdt" "2h"
      (by decide) (by decide) (by decide)⟩

theorem mem_insertSortedDedup {y x : Nat} : ∀ {l : List Nat},
    y ∈ insertSortedDedup x l ↔ y = x ∨ y ∈ l := by
  intro l
  induction l with
  | nil => simp [insertSortedDedup]
  | cons z zs ih =>
    simp only [insertSortedDedup]
    split_ifs with h1 h2
    · simp [List.mem_cons]
    · subst h2
      simp [List.mem_cons]
    · simp [List.mem_cons, ih]
      tauto

theorem pairwise_insertSortedDedup {x : Nat} : ∀ {l : List Nat},
    l.Pairwise (· < ·) → (insertSortedDedup x l).Pairwise (· < ·) := by
  intro l
  induction l with
  | nil => intro _; simp [insertSortedDedup]
  | cons z zs ih =>
    intro hp
    obtain ⟨hz, hzs⟩ := List.pairwise_cons.mp hp
    simp only [insertSortedDedup]
    split_ifs with h1 h2
    · refine List.pairwise_cons.mpr ⟨?_, hp⟩
      intro y hy
      rcases List.mem_cons.mp hy with rfl | hy'
      · exact h1
      · exact Nat.lt_trans h1 (hz y hy')
    · exact hp
    · have h3 : z < x := by omega
      refine List.pairwise_cons.mpr ⟨?_, ih hzs⟩
      intro y hy
      rcases mem_insertSortedDedup.mp hy with rfl | hy'
      · exact h3
      · exact hz y hy'

theorem mem_foldr_insertSortedDedup {y : Nat} : ∀ {l : List Nat},
    y ∈ l.foldr insertSortedDedup [] ↔ y ∈ l := by
  intro l
  induction l with
  | nil => simp
  | cons z zs ih => simp [List.foldr_cons, mem_insertSortedDedup, ih, List.mem_cons]

theorem pairwise_foldr_insertSortedDedup : ∀ (l : List Nat),
    (l.foldr insertSortedDedup []).Pairwise (· < ·) := by
  intro l
  induction l with
  | nil => simp
  | cons z zs ih => exact pairwise_insertSortedDedup ih

theorem pairwise_sortedBuckets (w : Nat) (sel : List Tick) :
    (sortedBuckets w sel).Pairwise (· < ·) :=
  pairwise_foldr_insertSortedDedup _

theorem nodup_sortedBuckets (w : Nat) (sel : List Tick) :
    (sortedBuckets w sel).Nodup :=
  (pairwise_sortedBuckets w sel).imp (fun h => Nat.ne_of_lt h)

theorem mem_sortedBuckets {b w : Nat} {sel : List Tick} :
    b ∈ sortedBuckets w sel ↔ ∃ t ∈ sel, time_bucket w t.ts = b := by
  rw [sortedBuckets, mem_foldr_insertSortedDedup]
  simp [List.mem_map]

theorem mem_groupOf {t : Tick} {w : Nat} {sel : List Tick} {b : Nat} :
    t ∈ groupOf w sel b ↔ t ∈ sel ∧ time_bucket w t.ts = b := by
  simp [groupOf, List.mem_filter]

theorem groupOf_ne_nil {w b : Nat} {sel : List Tick} (hb : b ∈ sortedBuckets w sel) :
    groupOf w sel b ≠ [] := by
  obtain ⟨t, ht, htb⟩ := mem_sortedBuckets.mp hb
  intro hc
  have hmem : t ∈ groupOf w sel b := mem_groupOf.mpr ⟨ht, htb⟩
  rw [hc] at hmem
  exact List.not_mem_nil t hmem

theorem mem_newBarsFor {bar : Bar} {w : Nat} {sym tf : String} {sel : List Tick} :
    bar ∈ newBarsFor w sym tf sel ↔
      ∃ b ∈ sortedBuckets w sel, bar = barOfGroup sym tf b (groupOf w sel b) := by
  simp [newBarsFor, List.mem_map, eq_comm]

theorem map_ts_newBarsFor (w : Nat) (sym tf : String) (sel : List Tick) :
    (newBarsFor w sym tf sel).map Bar.ts = sortedBuckets w sel := by
  rw [newBarsFor, List.map_map]
  have hcomp : (Bar.ts ∘ fun b => barOfGroup sym tf b (groupOf w sel b))
      = fun b => b := rfl
  rw [hcomp]
  simp

theorem argMinByTs_spec : ∀ (l : List Tick) (t : Tick),
    argMinByTs t l ∈ t :: l ∧ (argMinByTs t l).ts ≤ t.ts ∧
      ∀ u ∈ l, (argMinByTs t l).ts ≤ u.ts := by
  intro l
  induction l with
  | nil =>
    intro t
    refine ⟨List.mem_cons_self _ _, Nat.le_refl _, ?_⟩
    intro u hu
    exact absurd hu (List.not_mem_nil u)
  | cons x xs ih =>
    intro t
    have hfold : argMinByTs t (x :: xs) = argMinByTs (if x.ts < t.ts then x else t) xs := rfl
    obtain ⟨hmem, hle, hall⟩ := ih (if x.ts < t.ts then x else t)
    have hyts_t : (if x.ts < t.ts then x else t).ts ≤ t.ts := by
      split_ifs with h
      · exact Nat.le_of_lt h
      · exact Nat.le_refl _
    have hyts_x : (if x.ts < t.ts then x else t).ts ≤ x.ts := by
      split_ifs with h
      · exact Nat.le_refl _
      · exact Nat.le_of_not_lt h
    have hymem : (if x.ts < t.ts then x else t) ∈ t :: x :: xs := by
      split_ifs
      · exact List.mem_cons_of_mem _ (List.mem_cons_self _ _)
      · exact List.mem_cons_self _ _
    refine ⟨?_, ?_, ?_⟩
    · rw [hfold]
      rcases List.mem_cons.mp hmem with h | h
      · rw [h]
        exact hymem
      · exact List.mem_cons_of_mem _ (List.mem_cons_of_mem _ h)
    · rw [hfold]
      exact Nat.le_trans hle hyts_t
    · rw [hfold]
      intro u hu
      rcases List.mem_cons.mp hu with rfl | hu'
      · exact Nat.le_trans hle hyts_x
      · exact hall u hu'

theorem argMaxByTs_spec : ∀ (l : List Tick) (t : Tick),
    argMaxByTs t l ∈ t :: l ∧ t.ts ≤ (argMaxByTs t l).ts ∧
      ∀ u ∈ l, u.ts ≤ (argMaxByTs t l).ts := by
  intro l
  induction l with
  | nil =>
    intro t
    refine ⟨List.mem_cons_self _ _, Nat.le_refl _, ?_⟩
    intro u hu
    exact absurd hu (List.not_mem_nil u)
  | cons x xs ih =>
    intro t
    have hfold : argMaxByTs t (x :: xs) = argMaxByTs (if t.ts < x.ts then x else t) xs := rfl
    obtain ⟨hmem, hle, hall⟩ := ih (if t.ts < x.ts then x else t)
    have hyts_t : t.ts ≤ (if t.ts < x.ts then x else t).ts := by
      split_ifs with h
      · exact Nat.le_of_lt h
      · exact Nat.le_refl _
    have hyts_x : x.ts ≤ (if t.ts < x.ts then x else t).ts := by
      split_ifs with h
      · exact Nat.le_refl _
      · exact Nat.le_of_not_lt h
    have hymem : (if t.ts < x.ts then x else t) ∈ t :: x :: xs := by
      split_ifs
      · exact List.mem_cons_of_mem _ (List.mem_cons_self _ _)
      · exact List.mem_cons_self _ _
    refine ⟨?_, ?_, ?_⟩
    · rw [hfold]
      rcases List.mem_cons.mp hmem with h | h
      · rw [h]
        exact hymem
      · exact List.mem_cons_of_mem _ (List.mem_cons_of_mem _ h)
    · rw [hfold]
      exact Nat.le_trans hyts_t hle
    · rw [hfold]
      intro u hu
      rcases List.mem_cons.mp hu with rfl | hu'
      · exact Nat.le_trans hyts_x hle
      · exact hall u hu'

theorem arg_min_spec {g : List Tick} (h : g ≠ []) :
    arg_min g ∈ g ∧ ∀ u ∈ g, (arg_min g).ts ≤ u.ts := by
  cases g with
  | nil => exact absurd rfl h
  | cons t l =>
    obtain ⟨hmem, hle, hall⟩ := argMinByTs_spec l t
    refine ⟨hmem, ?_⟩
    intro u hu
    rcases List.mem_cons.mp hu with rfl | hu'
    · exact hle
    · exact hall u hu'

theorem arg_max_spec {g : List Tick} (h : g ≠ []) :
    arg_max g ∈ g ∧ ∀ u ∈ g, u.ts ≤ (arg_max g).ts := by
  cases g with
  | nil => exact absurd rfl h
  | cons t l =>
    obtain ⟨hmem, hle, hall⟩ := argMaxByTs_spec l t
    refine ⟨hmem, ?_⟩
    intro u hu
    rcases List.mem_cons.mp hu with rfl | hu'
    · exact hle
    · exact hall u hu'

theorem foldlMax_spec : ∀ (l : List Tick) (a : Rat),
    (l.foldl (fun m x => max m x.price) a = a ∨
        ∃ t ∈ l, l.foldl (fun m x => max m x.price) a = t.price) ∧
      a ≤ l.foldl (fun m x => max m x.price) a ∧
      ∀ u ∈ l, u.price ≤ l.foldl (fun m x => max m x.price) a := by
  intro l
  induction l with
  | nil =>
    intro a
    refine ⟨Or.inl rfl, le_refl _, ?_⟩
    intro u hu
    exact absurd hu (List.not_mem_nil u)
  | cons x xs ih =>
    intro a
    have hfold : (x :: xs).foldl (fun m x => max m x.price) a
        = xs.foldl (fun m x => max m x.price) (max a x.price) := rfl
    obtain ⟨hor, hle, hall⟩ := ih (max a x.price)
    refine ⟨?_, ?_, ?_⟩
    · rw [hfold]
      rcases hor with h | ⟨t, ht, hteq⟩
      · rcases max_choice a x.price with hm | hm
        · exact Or.inl (by rw [h, hm])
        · exact Or.inr ⟨x, List.mem_cons_self _ _, by rw [h, hm]⟩
      · exact Or.inr ⟨t, List.mem_cons_of_mem _ ht, hteq⟩
    · rw [hfold]
      exact le_trans (le_max_left _ _) hle
    · rw [hfold]
      intro u hu
      rcases List.mem_cons.mp hu with rfl | hu'
      · exact le_trans (le_max_right _ _) hle
      · exact hall u hu'

theorem foldlMin_spec : ∀ (l : List Tick) (a : Rat),
    (l.foldl (fun m x => min m x.price) a = a ∨
        ∃ t ∈ l, l.foldl (fun m x => min m x.price) a = t.price) ∧
      l.foldl (fun m x => min m x.price) a ≤ a ∧
      ∀ u ∈ l, l.foldl (fun m x => min m x.price) a ≤ u.price := by
  intro l
  induction l with
  | nil =>
    intro a
    refine ⟨Or.inl rfl, le_refl _, ?_⟩
    intro u hu
    exact absurd hu (List.not_mem_nil u)
  | cons x xs ih =>
    intro a
    have hfold : (x :: xs).foldl (fun m x => min m x.price) a
        = xs.foldl (fun m x => min m x.price) (min a x.price) := rfl
    obtain ⟨hor, hle, hall⟩ := ih (min a x.price)
    refine ⟨?_, ?_, ?_⟩
    · rw [hfold]
      rcases hor with h | ⟨t, ht, hteq⟩
      · rcases min_choice a x.price with hm | hm
        · exact Or.inl (by rw [h, hm])
        · exact Or.inr ⟨x, List.mem_cons_self _ _, by rw [h, hm]⟩
      · exact Or.inr ⟨t, List.mem_cons_of_mem _ ht, hteq⟩
    · rw [hfold]
      exact le_trans hle (min_le_left _ _)
    · rw [hfold]
      intro u hu
      rcases List.mem_cons.mp hu with rfl | hu'
      · exact le_trans hle (min_le_right _ _)
      · exact hall u hu'

theorem high_of_spec {g : List Tick} (h : g ≠ []) :
    (∃ t ∈ g, high_of g = t.price) ∧ ∀ u ∈ g, u.price ≤ high_of g := by
  cases g with
  | nil => exact absurd rfl h
  | cons t l =>
    obtain ⟨hor, hle, hall⟩ := foldlMax_spec l t.price
    have hg : high_of (t :: l) = l.foldl (fun m x => max m x.price) t.price := rfl
    constructor
    · rcases hor with h' | ⟨u, hu, hueq⟩
      · exact ⟨t, List.mem_cons_self _ _, by rw [hg, h']⟩
      · exact ⟨u, List.mem_cons_of_mem _ hu, by rw [hg, hueq]⟩
    · intro u hu
      rcases List.mem_cons.mp hu with rfl | hu'
      · rw [hg]
        exact hle
      · rw [hg]
        exact hall u hu'

theorem low_of_spec {g : List Tick} (h : g ≠ []) :
    (∃ t ∈ g, low_of g = t.price) ∧ ∀ u ∈ g, low_of g ≤ u.price := by
  cases g with
  | nil => exact absurd rfl h
  | cons t l =>
    obtain ⟨hor, hle, hall⟩ := foldlMin_spec l t.price
    have hg : low_of (t :: l) = l.foldl (fun m x => min m x.price) t.price := rfl
    constructor
    · rcases hor with h' | ⟨u, hu, hueq⟩
      · exact ⟨t, List.mem_cons_self _ _, by rw [hg, h']⟩
      · exact ⟨u, List.mem_cons_of_mem _ hu, by rw [hg, hueq]⟩
    · intro u hu
      rcases List.mem_cons.mp hu with rfl | hu'
      · rw [hg]
        exact hle
      · rw [hg]
        exact hall u hu'

theorem sumSizes_eq : ∀ (l : List Tick), sumSizes l = (l.map Tick.size).sum := by
  have key : ∀ (l : List Tick) (a : Rat),
      l.foldl (fun s x => s + x.size) a = a + (l.map Tick.size).sum := by
    intro l
    induction l with
    | nil =>
      intro a
      simp
    | cons x xs ih =>
      intro a
      have hfold : (x :: xs).foldl (fun s x => s + x.size) a
          = xs.foldl (fun s x => s + x.size) (a + x.size) := rfl
      rw [hfold, ih]
      simp [add_assoc]
  intro l
  rw [sumSizes, key, zero_add]

theorem mem_selectedTicks {t : Tick} {st : Store} {sym : String} {h? : Option Nat} :
    t ∈ selectedTicks st sym h? ↔
      t ∈ st.ticks ∧ t.symbol = sym ∧ afterMark h? t.ts := by
  cases h? with
  | none =>
    simp [selectedTicks, List.mem_filter, tickSelected.eq_def, afterMark]
  | some h0 =>
    simp [selectedTicks, List.mem_filter, tickSelected.eq_def, afterMark, and_assoc]

theorem TIMEFRAME_MAP_pos {tf : String} {w : Nat} (h : TIMEFRAME_MAP tf = some w) :
    0 < w := by
  rw [TIMEFRAME_MAP] at h
  split_ifs at h
  · injection h with h'
    omega
  · injection h with h'
    omega
  · injection h with h'
    omega

theorem mark_le_time_bucket {w h ts : Nat} (hw : 0 < w) (hdvd : w ∣ h) (hlt : h < ts) :
    h ≤ time_bucket w ts := by
  obtain ⟨k, rfl⟩ := hdvd
  rw [time_bucket]
  have h1 : k * w ≤ ts := Nat.le_of_lt (by rwa [Nat.mul_comm] at hlt)
  have h2 : k ≤ ts / w := (Nat.le_div_iff_mul_le hw).mpr h1
  calc w * k = k * w := Nat.mul_comm _ _
    _ ≤ ts / w * w := Nat.mul_le_mul_right w h2

/-- Claim C3: a `resample(symbol, timeframe)` invocation aggregates exactly
the ticks of that symbol with timestamp strictly greater than the current
high-water mark (all of the symbol's ticks when no mark exists); ticks at
or before the mark are excluded, and the call only appends — every
pre-existing bar row is left in place unaltered. -/
theorem incremental_exclusion (st st' : Store) (sym tf : String) (t : Tick)
    (hok : resample st sym tf = Except.ok st') :
    st'.ohlc.take st.ohlc.length = st.ohlc ∧
    st'.ticks = st.ticks ∧
    (t ∈ selectedTicks st sym (latest_bar_time st sym tf) ↔
      t ∈ st.ticks ∧ t.symbol = sym ∧
        afterMark (latest_bar_time st sym tf) t.ts) := by
  obtain ⟨w, hw, rfl⟩ := resample_ok_eq hok
  refine ⟨?_, rfl, mem_selectedTicks⟩
  show (st.ohlc ++ _).take st.ohlc.length = st.ohlc
  exact List.take_left _ _

/-- Witness for C3: the one-bar fixture store; its only tick (at 5000 ms,
strictly above the mark 0) is selected, and the second resample leaves the
existing bar row in place. -/
theorem incremental_exclusion_witness :
    resample dupSt1 "btcusdt" "1m" = Except.ok dupSt2 ∧
    (dupSt2.ohlc.take dupSt1.ohlc.length = dupSt1.ohlc ∧
      dupSt2.ticks = dupSt1.ticks ∧
      (dupTick ∈ selectedTicks dupSt1 "btcusdt" (latest_bar_time dupSt1 "btcusdt" "1m") ↔
        dupTick ∈ dupSt1.ticks ∧ dupTick.symbol = "btcusdt" ∧
          afterMark (latest_bar_time dupSt1 "btcusdt" "1m") dupTick.ts)) :=
  ⟨rfl, incremental_exclusion dupSt1 dupSt2 "btcusdt" "1m" dupTick rfl⟩

/-- Claim C1 is false on the code: starting from the empty store, inserting
one tick at 5000 ms and resampling the 1-minute timeframe twice leaves two
bar rows with the identical (symbol, timeframe, bucket_start) triple
("btcusdt", "1m", 0) — the open bucket is re-aggregated and re-inserted,
and the table enforces no uniqueness. -/
theorem bucket_uniqueness_counterexample :
    ((runOps emptyStore
        [Op.insert [dupTick], Op.resampleOp "btcusdt" "1m",
          Op.resampleOp "btcusdt" "1m"]).ohlc.filter
      (fun b => b.symbol == "btcusdt" && b.timeframe == "1m" && b.ts == 0)).length
      = 2 := rfl

/-- Claim C1 (amended): a single resampler invocation appends at most one
bar row per (symbol, timeframe, bucket_start) triple — the appended rows
carry the invoked key and pairwise-distinct bucket starts — and, when a
high-water mark `h` exists (bucket-aligned, as every materialized bar is),
appends only rows with bucket_start at or above `h`; across invocations,
however, the bucket at the high-water mark itself may be appended again,
so the table may hold several rows for that one triple. -/
theorem resample_bucket_rows (st st' : Store) (sym tf : String) (w : Nat)
    (hw : TIMEFRAME_MAP tf = some w)
    (hok : resample st sym tf = Except.ok st') :
    ((st'.ohlc.drop st.ohlc.length).map Bar.ts).Nodup ∧
    (∀ bar ∈ st'.ohlc.drop st.ohlc.length, bar.symbol = sym ∧ bar.timeframe = tf) ∧
    (∀ h, latest_bar_time st sym tf = some h → w ∣ h →
      ∀ bar ∈ st'.ohlc.drop st.ohlc.length, h ≤ bar.ts) := by
  obtain ⟨w', hw', rfl⟩ := resample_ok_eq hok
  have hww : w' = w := Option.some.inj (hw'.symm.trans hw)
  subst hww
  have hdrop : (insert_ohlc st (newBarsFor w' sym tf
        (selectedTicks st sym (latest_bar_time st sym tf)))).ohlc.drop st.ohlc.length
      = newBarsFor w' sym tf (selectedTicks st sym (latest_bar_time st sym tf)) := by
    show (st.ohlc ++ _).drop st.ohlc.length = _
    exact List.drop_left _ _
  rw [hdrop]
  refine ⟨?_, ?_, ?_⟩
  · rw [map_ts_newBarsFor]
    exact nodup_sortedBuckets _ _
  · intro bar hbar
    obtain ⟨b, hb, rfl⟩ := mem_newBarsFor.mp hbar
    exact ⟨rfl, rfl⟩
  · intro h hmark hdvd bar hbar
    obtain ⟨b, hb, rfl⟩ := mem_newBarsFor.mp hbar
    show h ≤ b
    obtain ⟨t, ht, htb⟩ := mem_sortedBuckets.mp hb
    have hsel := mem_selectedTicks.mp ht
    rw [hmark] at hsel
    have hlt : h < t.ts := hsel.2.2
    rw [← htb]
    exact mark_le_time_bucket (TIMEFRAME_MAP_pos hw) hdvd hlt

/-- Witness for C1 (amended) on the duplicate-bucket fixture: the second
resample appends exactly one row, for bucket 0, which sits at the existing
(aligned) high-water mark 0. -/
theorem resample_bucket_rows_witness :
    (TIMEFRAME_MAP "1m" = some 60000 ∧
      resample dupSt1 "btcusdt" "1m" = Except.ok dupSt2 ∧
      latest_bar_time dupSt1 "btcusdt" "1m" = some 0 ∧
      (60000 ∣ 0) ∧ dupBar0 ∈ dupSt2.ohlc.drop dupSt1.ohlc.length) ∧
    ((dupSt2.ohlc.drop dupSt1.ohlc.length).map Bar.ts).Nodup ∧
    (dupBar0.symbol = "btcusdt" ∧ dupBar0.timeframe = "1m") ∧
    0 ≤ dupBar0.ts :=
  ⟨⟨rfl, rfl, by decide, ⟨0, rfl⟩, List.mem_singleton.mpr rfl⟩,
    (resample_bucket_rows dupSt1 dupSt2 "btcusdt" "1m" 60000 rfl rfl).1,
    (resample_bucket_rows dupSt1 dupSt2 "btcusdt" "1m" 60000 rfl rfl).2.1
      dupBar0 (List.mem_singleton.mpr rfl),
    (resample_bucket_rows dupSt1 dupSt2 "btcusdt" "1m" 60000 rfl rfl).2.2
      0 (by decide) ⟨0, rfl⟩ dupBar0 (List.mem_singleton.mpr rfl)⟩

/-- Claim C2: every bar a resample call produces aggregates its bucket's
constituent ticks correctly — `open` is the price of a tick with minimal
timestamp in the bucket, `close` the price of one with maximal timestamp,
`high`/`low` are attained prices bounding every constituent's price, and
`volume` is the sum of the constituents' sizes. -/
theorem aggregation_correct (st st' : Store) (sym tf : String) (w : Nat)
    (hw : TIMEFRAME_MAP tf = some w)
    (hok : resample st sym tf = Except.ok st') :
    ∀ bar ∈ st'.ohlc.drop st.ohlc.length,
      bucketTicksOf st sym tf w bar.ts ≠ [] ∧
      (∃ t ∈ bucketTicksOf st sym tf w bar.ts, bar.«open» = t.price ∧
        ∀ u ∈ bucketTicksOf st sym tf w bar.ts, t.ts ≤ u.ts) ∧
      (∃ t ∈ bucketTicksOf st sym tf w bar.ts, bar.close = t.price ∧
        ∀ u ∈ bucketTicksOf st sym tf w bar.ts, u.ts ≤ t.ts) ∧
      (∃ t ∈ bucketTicksOf st sym tf w bar.ts, bar.high = t.price) ∧
      (∀ u ∈ bucketTicksOf st sym tf w bar.ts, u.price ≤ bar.high) ∧
      (∃ t ∈ bucketTicksOf st sym tf w bar.ts, bar.low = t.price) ∧
      (∀ u ∈ bucketTicksOf st sym tf w bar.ts, bar.low ≤ u.price) ∧
      bar.volume = ((bucketTicksOf st sym tf w bar.ts).map Tick.size).sum := by
  obtain ⟨w', hw', rfl⟩ := resample_ok_eq hok
  have hww : w' = w := Option.some.inj (hw'.symm.trans hw)
  subst hww
  intro bar hbar
  have hdrop : (insert_ohlc st (newBarsFor w' sym tf
        (selectedTicks st sym (latest_bar_time st sym tf)))).ohlc.drop st.ohlc.length
      = newBarsFor w' sym tf (selectedTicks st sym (latest_bar_time st sym tf)) := by
    show (st.ohlc ++ _).drop st.ohlc.length = _
    exact List.drop_left _ _
  rw [hdrop] at hbar
  obtain ⟨b, hb, rfl⟩ := mem_newBarsFor.mp hbar
  have hgr : bucketTicksOf st sym tf w'
        (barOfGroup sym tf b
          (groupOf w' (selectedTicks st sym (latest_bar_time st sym tf)) b)).ts
      = groupOf w' (selectedTicks st sym (latest_bar_time st sym tf)) b := rfl
  rw [hgr]
  have hne : groupOf w' (selectedTicks st sym (latest_bar_time st sym tf)) b ≠ [] :=
    groupOf_ne_nil hb
  obtain ⟨hminmem, hminall⟩ := arg_min_spec hne
  obtain ⟨hmaxmem, hmaxall⟩ := arg_max_spec hne
  obtain ⟨hhighex, hhighall⟩ := high_of_spec hne
  obtain ⟨hlowex, hlowall⟩ := low_of_spec hne
  refine ⟨hne, ?_, ?_, hhighex, hhighall, hlowex, hlowall, ?_⟩
  · exact ⟨arg_min _, hminmem, rfl, hminall⟩
  · exact ⟨arg_max _, hmaxmem, rfl, hmaxall⟩
  · exact sumSizes_eq _

/-- Witness for C2 on the spec's own example: ticks (t0, price 10, size 1),
(t1, 12, 2), (t2, 9, 1) in one 1-minute bucket produce a bar with open 10,
high 12, low 9, close 9, volume 4. -/
theorem aggregation_correct_witness :
    (TIMEFRAME_MAP "1m" = some 60000 ∧
      resample aggSt "btcusdt" "1m" = Except.ok aggSt' ∧
      aggBar0 ∈ aggSt'.ohlc.drop aggSt.ohlc.length) ∧
    bucketTicksOf aggSt "btcusdt" "1m" 60000 aggBar0.ts ≠ [] ∧
    (aggBar0.«open» = 10 ∧ aggBar0.high = 12 ∧ aggBar0.low = 9 ∧
      aggBar0.close = 9 ∧ aggBar0.volume = 4) :=
  ⟨⟨rfl, rfl, List.mem_singleton.mpr rfl⟩,
    (aggregation_correct aggSt aggSt' "btcusdt" "1m" 60000 rfl rfl
      aggBar0 (List.mem_singleton.mpr rfl)).1,
    rfl,
    by
      have h : aggBar0.high = max (max (10:Rat) 12) 9 := rfl
      rw [h]
      norm_num,
    by
      have h : aggBar0.low = min (min (10:Rat) 12) 9 := rfl
      rw [h]
      norm_num,
    rfl,
    by
      have h : aggBar0.volume = ((0:Rat) + 1) + 2 + 1 := rfl
      rw [h]
      norm_num⟩

/-- Claim C9: `get_ticks(symbol, limit)` returns rows of the queried symbol
only, ordered most-recent-first by timestamp; it returns
`min limit (number of matching rows)` rows — fewer than `limit` only when
fewer exist — and the rows kept are the most recent ones: every returned
tick's timestamp is at least that of every matching tick left out. -/
theorem query_ticks_spec (st : Store) (sym : String) (limit : Nat) :
    (∀ t ∈ get_ticks st sym limit, t.symbol = sym) ∧
    List.Sorted tsGE (get_ticks st sym limit) ∧
    (get_ticks st sym limit).length
      = min limit (st.ticks.filter (fun t => t.symbol == sym)).length ∧
    (List.insertionSort tsGE (st.ticks.filter (fun t => t.symbol == sym))).Perm
      (st.ticks.filter (fun t => t.symbol == sym)) ∧
    (∀ a ∈ get_ticks st sym limit,
      ∀ b ∈ (List.insertionSort tsGE
          (st.ticks.filter (fun t => t.symbol == sym))).drop limit,
        b.ts ≤ a.ts) := by
  have hsorted : (List.insertionSort tsGE
      (st.ticks.filter (fun t => t.symbol == sym))).Sorted tsGE :=
    List.sorted_insertionSort tsGE _
  have hperm : (List.insertionSort tsGE
      (st.ticks.filter (fun t => t.symbol == sym))).Perm
        (st.ticks.filter (fun t => t.symbol == sym)) :=
    List.perm_insertionSort tsGE _
  refine ⟨?_, ?_, ?_, hperm, ?_⟩
  · intro t ht
    have h1 : t ∈ List.insertionSort tsGE
        (st.ticks.filter (fun t => t.symbol == sym)) :=
      List.mem_of_mem_take ht
    have h2 : t ∈ st.ticks.filter (fun t => t.symbol == sym) :=
      hperm.mem_iff.mp h1
    have h3 := List.of_mem_filter h2
    simpa using h3
  · exact List.Pairwise.sublist (List.take_sublist _ _) hsorted
  · rw [get_ticks, List.length_take, List.length_insertionSort]
  · intro a ha b hb
    have hp : List.Pairwise tsGE
        ((List.insertionSort tsGE
            (st.ticks.filter (fun t => t.symbol == sym))).take limit
          ++ (List.insertionSort tsGE
            (st.ticks.filter (fun t => t.symbol == sym))).drop limit) := by
      rw [List.take_append_drop]
      exact hsorted
    exact (List.pairwise_append.mp hp).2.2 a ha b hb

/-- Witness for C9 on the query fixture (limit 2): the tick at 3000 ms is
returned, carries the queried symbol, the result has `min 2 3 = 2` rows,
and the left-out tick at 1000 ms is no newer than any returned one. -/
theorem query_ticks_spec_witness :
    (qTickA ∈ get_ticks qSt "btcusdt" 2 ∧
      qTickC ∈ (List.insertionSort tsGE
        (qSt.ticks.filter (fun t => t.symbol == "btcusdt"))).drop 2) ∧
    qTickA.symbol = "btcusdt" ∧
    (get_ticks qSt "btcusdt" 2).length
      = min 2 ((qSt.ticks.filter (fun t => t.symbol == "btcusdt")).length) ∧
    qTickC.ts ≤ qTickA.ts :=
  ⟨⟨by decide, by decide⟩,
    (query_ticks_spec qSt "btcusdt" 2).1 qTickA (by decide),
    (query_ticks_spec qSt "btcusdt" 2).2.2.1,
    (query_ticks_spec qSt "btcusdt" 2).2.2.2.2 qTickA (by decide) qTickC (by decide)⟩
